import Mathlib

/-!
Shallow embedding of the particle-simulation repository
(`particles_threaded_atomic/src/main.rs` and
`particles_threaded_collision/src/main.rs`).

Modelling conventions:
* `f32` values are embedded as exact rationals (`ℚ`); the constants
  `10.0` and `0.2` become `10` and `1/5`.
* The random source is external: each draw of `random::<f32>()` (uniform
  in `[0,1)`) becomes an explicit `ℚ` parameter, constrained by
  `0 ≤ u` and `u < 1` where a claim needs it.
* `Particle::collide` computes `sqrt (dx*dx + dy*dy) < COLLISION_THRESHOLD`;
  since both sides are nonnegative this is equivalent to
  `dx*dx + dy*dy < COLLISION_THRESHOLD * COLLISION_THRESHOLD`, which is the
  executable comparison used here (the equivalence with the square-root
  form over ℝ is proved in `collide_iff_sqrt_dist_lt`).
* The wall-clock timer is external: each evaluation of
  `start_time.elapsed()` at the top of a poll loop becomes one entry of an
  explicit list of elapsed-time readings; a `while elapsed < duration`
  loop executes its body once per entry of the longest prefix of readings
  satisfying the check (`takeWhile`), exactly the iterations whose
  top-of-loop check passed.
* The collision tally: in the `atomic` variant each observer iteration
  performs `collision_count.fetch_add(collisions, SeqCst)`; in the
  `collision` variant the increment `*counter += collisions` is performed
  while holding the counter's mutex.  In both cases each increment is a
  single indivisible read-modify-write, so a concurrent execution is an
  interleaving of whole increments; `interleavings` enumerates these.
-/

/-- Source constant `NUM_OF_PARTICLES: usize = 100`. -/
def NUM_OF_PARTICLES : ℕ := 100

/-- Source constant `ENCLOSURE_SIZE: f32 = 10.0` (10x10 enclosure). -/
def ENCLOSURE_SIZE : ℚ := 10

/-- Source constant `MOVE_DURATION: u64 = 10` (seconds). -/
def MOVE_DURATION : ℚ := 10

/-- Source constant `COLLISION_THRESHOLD: f32 = 0.2`. -/
def COLLISION_THRESHOLD : ℚ := 1/5

/-- The `Particle` struct: two floating-point coordinates. -/
structure Particle where
  x : ℚ
  y : ℚ
deriving DecidableEq

instance : Inhabited Particle := ⟨⟨0, 0⟩⟩

/-- Rust `f32::clamp(self, min, max)`: `min` if `self < min`, `max` if
`self > max`, otherwise `self`. -/
def rclamp (v lo hi : ℚ) : ℚ :=
  if v < lo then lo else if hi < v then hi else v

/-- The displacement computed from one draw of the random source:
`(random::<f32>() - 0.5) * 2.0`. -/
def step_draw (u : ℚ) : ℚ := (u - 1/2) * 2

/-- `Particle::new`: random initial position within the enclosure,
`x = random * ENCLOSURE_SIZE`, `y = random * ENCLOSURE_SIZE`, with the two
draws `r1 r2` passed explicitly. -/
def Particle.new (r1 r2 : ℚ) : Particle :=
  ⟨r1 * ENCLOSURE_SIZE, r2 * ENCLOSURE_SIZE⟩

/-- `Particle::move_particle`: add a random displacement in each axis and
clamp both coordinates into `[0, ENCLOSURE_SIZE]`.  The two draws of
`random::<f32>()` are the explicit parameters `u1 u2`. -/
def Particle.move_particle (p : Particle) (u1 u2 : ℚ) : Particle :=
  let dx := step_draw u1
  let dy := step_draw u2
  ⟨rclamp (p.x + dx) 0 ENCLOSURE_SIZE, rclamp (p.y + dy) 0 ENCLOSURE_SIZE⟩

/-- `Particle::collide`: whether the Euclidean distance between the two
positions is strictly below `COLLISION_THRESHOLD` (squared form, see the
file header; `collide_iff_sqrt_dist_lt` relates it to the `sqrt` form). -/
def Particle.collide (p other : Particle) : Bool :=
  let dx := p.x - other.x
  let dy := p.y - other.y
  decide (dx * dx + dy * dy < COLLISION_THRESHOLD * COLLISION_THRESHOLD)

/-- `Particle::get_position`. -/
def Particle.get_position (p : Particle) : ℚ × ℚ := (p.x, p.y)

/-- The `ParticleSystem` struct (the shared tally is modelled separately,
see the file header). -/
structure ParticleSystem where
  particles : List Particle
deriving DecidableEq

/-- `ParticleSystem::move_particles`: move every particle; the fresh random
draws for the members are the explicit list `draws` (one pair per
particle, in order). -/
def ParticleSystem.move_particles (s : ParticleSystem) (draws : List (ℚ × ℚ)) :
    ParticleSystem :=
  ⟨List.zipWith (fun p d => p.move_particle d.1 d.2) s.particles draws⟩

/-- `ParticleSystem::get_particle_count`. -/
def ParticleSystem.get_particle_count (s : ParticleSystem) : ℕ :=
  s.particles.length

/-- `ParticleSystem::get_particle_positions`. -/
def ParticleSystem.get_particle_positions (s : ParticleSystem) : List (ℚ × ℚ) :=
  s.particles.map Particle.get_position

/-- `ParticleSystem::check_collisions`: the literal nested index loops
`for i in 0..len { for j in (i+1)..len { if collide { count += 1 } } }`. -/
def ParticleSystem.check_collisions (s : ParticleSystem) : ℕ :=
  (List.range s.particles.length).foldl
    (fun collision_count i =>
      (List.range' (i + 1) (s.particles.length - (i + 1))).foldl
        (fun acc j =>
          if (s.particles.getD i default).collide (s.particles.getD j default)
          then acc + 1 else acc)
        collision_count)
    0

/-- Structural form of the pairwise scan: each particle is tested against
exactly the particles after it in the sequence. -/
def ccStruct : List Particle → ℕ
  | [] => 0
  | p :: l => l.countP (fun q => p.collide q) + ccStruct l

/-- The set of index pairs `(i, j)` with `i < j`, both in range, whose
particles are within the collision threshold — the spec's reading of
`count_collisions` ("every unordered pair of distinct particles, i < j,
all i, j in range"). -/
def collidingPairs (ps : List Particle) : Finset (ℕ × ℕ) :=
  (Finset.range ps.length ×ˢ Finset.range ps.length).filter
    (fun ij => ij.1 < ij.2 ∧
      (ps.getD ij.1 default).collide (ps.getD ij.2 default) = true)

/-- One atomic update of the shared collision tally: both
`collision_count.fetch_add(c, SeqCst)` (atomic variant) and
`*counter += c` under the counter's mutex (collision variant) add `c` to
the tally in one indivisible step. -/
def fetch_add (tally c : ℕ) : ℕ := tally + c

/-- The tally after a sequence of atomic increments, starting from 0
(`AtomicUsize::new(0)` / `Mutex::new(0)`). -/
def tallyAfter (incs : List ℕ) : ℕ := incs.foldl fetch_add 0

/-- The tally after only the first `k` increments of a run. -/
def tallyAt (incs : List ℕ) (k : ℕ) : ℕ := tallyAfter (incs.take k)

/-- All interleavings of two threads' sequences of atomic increments:
every order in which the scheduler can execute the two threads' updates,
each update staying indivisible. -/
def interleavings : List ℕ → List ℕ → List (List ℕ)
  | [], l2 => [l2]
  | a :: l1, [] => [a :: l1]
  | a :: l1, b :: l2 =>
      (interleavings l1 (b :: l2)).map (a :: ·) ++
      (interleavings (a :: l1) l2).map (b :: ·)
termination_by l1 l2 => l1.length + l2.length

/-- The iterations of a `while start_time.elapsed() < duration { body }`
poll loop whose top-of-loop check passed: `readings` are the successive
values of `start_time.elapsed()` at the checks, and the loop body runs
once per reading in the longest prefix below `dur`. -/
def loopBodies (readings : List ℚ) (dur : ℚ) : List ℚ :=
  readings.takeWhile (fun r => decide (r < dur))

/-- The final tally reported after an observer task whose executed
iterations scanned the given field snapshots: each iteration calls
`check_collisions` and folds the result into the shared tally. -/
def observerTally (snapshots : List ParticleSystem) : ℕ :=
  tallyAfter (snapshots.map ParticleSystem.check_collisions)

/-- The tally reported by a run whose observer loop saw the elapsed-time
readings `readings` against deadline `dur`, scanning field state `s` at
each executed iteration. -/
def driverTally (s : ParticleSystem) (readings : List ℚ) (dur : ℚ) : ℕ :=
  observerTally ((loopBodies readings dur).map (fun _ => s))

/-- The particle is inside the square enclosure `[0, E] × [0, E]`. -/
def inEnclosure (p : Particle) : Prop :=
  0 ≤ p.x ∧ p.x ≤ ENCLOSURE_SIZE ∧ 0 ≤ p.y ∧ p.y ≤ ENCLOSURE_SIZE

instance (p : Particle) : Decidable (inEnclosure p) := by
  unfold inEnclosure; infer_instance

/-- A particle after an arbitrary sequence of `move_particle` updates,
each update taking its own pair of random draws. -/
def applyMoves (p : Particle) (moves : List (ℚ × ℚ)) : Particle :=
  moves.foldl (fun q m => q.move_particle m.1 m.2) p

/-! ## Helper lemmas -/

lemma foldl_ite_count {α : Type*} (q : α → Bool) :
    ∀ (l : List α) (a : ℕ),
      l.foldl (fun acc x => if q x then acc + 1 else acc) a = a + l.countP q
  | [], a => by simp
  | x :: l, a => by
    simp only [List.foldl_cons, List.countP_cons, foldl_ite_count q l]
    by_cases h : q x
    · simp [h]
      omega
    · simp [h]

lemma foldl_add_sum {α : Type*} (g : α → ℕ) :
    ∀ (l : List α) (a : ℕ),
      l.foldl (fun acc x => acc + g x) a = a + (l.map g).sum
  | [], a => by simp
  | x :: l, a => by
    simp only [List.foldl_cons, List.map_cons, List.sum_cons, foldl_add_sum g l]
    omega

lemma countP_getD_range {α : Type*} (q : α → Bool) (d : α) :
    ∀ (l : List α),
      (List.range l.length).countP (fun k => q (l.getD k d)) = l.countP q
  | [] => by simp
  | x :: l => by
    rw [List.length_cons, List.range_succ_eq_map, List.countP_cons,
      List.countP_map]
    simp only [Function.comp_def, List.getD_cons_succ, List.getD_cons_zero,
      countP_getD_range q d l, List.countP_cons]

lemma countP_range'_getD {α : Type*} (q : α → Bool) (d : α) :
    ∀ (l : List α) (s : ℕ),
      (List.range' s (l.length - s)).countP (fun j => q (l.getD j d)) =
        (l.drop s).countP q
  | l, 0 => by
    rw [Nat.sub_zero, ← List.range_eq_range', List.drop_zero]
    exact countP_getD_range q d l
  | [], s + 1 => by simp
  | x :: l, s + 1 => by
    have h1 : (x :: l).length - (s + 1) = l.length - s := by
      simp [List.length_cons]
    rw [h1, List.drop_succ_cons, show s + 1 = 1 + s from Nat.add_comm s 1,
      ← List.map_add_range' 1 s (l.length - s) 1, List.countP_map]
    rw [← countP_range'_getD q d l s]
    refine List.countP_congr (fun j hj => ?_)
    simp [Function.comp_def, Nat.add_comm 1 j]

lemma sum_rows_eq_ccStruct :
    ∀ ps : List Particle,
      ((List.range ps.length).map
        (fun i => (ps.drop (i + 1)).countP
          (fun q => (ps.getD i default).collide q))).sum = ccStruct ps
  | [] => by simp [ccStruct]
  | p :: l => by
    rw [List.length_cons, List.range_succ_eq_map, List.map_cons, List.map_map,
      List.sum_cons]
    have htail :
        ((List.range l.length).map
          ((fun i => ((p :: l).drop (i + 1)).countP
            (fun q => ((p :: l).getD i default).collide q)) ∘ Nat.succ)) =
        (List.range l.length).map
          (fun i => (l.drop (i + 1)).countP
            (fun q => (l.getD i default).collide q)) := by
      refine List.map_congr_left (fun i _ => ?_)
      simp [Function.comp_def]
    rw [htail, sum_rows_eq_ccStruct l]
    simp [ccStruct]

lemma check_collisions_eq_ccStruct (s : ParticleSystem) :
    s.check_collisions = ccStruct s.particles := by
  rw [ParticleSystem.check_collisions]
  have hfun :
      (fun (collision_count : ℕ) (i : ℕ) =>
        (List.range' (i + 1) (s.particles.length - (i + 1))).foldl
          (fun acc j =>
            if (s.particles.getD i default).collide (s.particles.getD j default)
            then acc + 1 else acc)
          collision_count) =
      (fun collision_count i => collision_count +
        ((s.particles.drop (i + 1)).countP
          (fun q => (s.particles.getD i default).collide q))) := by
    funext a i
    rw [foldl_ite_count, countP_range'_getD]
  rw [hfun, foldl_add_sum, Nat.zero_add, sum_rows_eq_ccStruct]

lemma collide_comm (p q : Particle) : p.collide q = q.collide p := by
  simp only [Particle.collide, decide_eq_decide]
  constructor
  · intro h
    nlinarith [h]
  · intro h
    nlinarith [h]

lemma collide_self (p : Particle) : p.collide p = true := by
  simp [Particle.collide, COLLISION_THRESHOLD]

lemma ccStruct_perm {l1 l2 : List Particle} (h : l1.Perm l2) :
    ccStruct l1 = ccStruct l2 := by
  induction h with
  | nil => rfl
  | cons x h ih =>
      simp only [ccStruct, ih, h.countP_eq]
  | swap x y l =>
      simp only [ccStruct, List.countP_cons, collide_comm x y]
      omega
  | trans h1 h2 ih1 ih2 => exact ih1.trans ih2

lemma ccStruct_replicate (n : ℕ) (p : Particle) :
    ccStruct (List.replicate n p) = n * (n - 1) / 2 := by
  rw [← Nat.choose_two_right]
  induction n with
  | zero => rfl
  | succ m ih =>
      rw [List.replicate_succ, ccStruct, ih, List.countP_replicate,
        collide_self]
      simp [Nat.choose_succ_succ, Nat.choose_one_right]

lemma list_sum_range_map (f : ℕ → ℕ) :
    ∀ n, ((List.range n).map f).sum = ∑ i ∈ Finset.range n, f i
  | 0 => by simp
  | n + 1 => by
    rw [List.range_succ, List.map_append, List.sum_append,
      Finset.sum_range_succ, list_sum_range_map f n]
    simp

lemma sum_ite_countP (p : ℕ → Bool) :
    ∀ n, (∑ j ∈ Finset.range n, if p j then 1 else 0) =
      (List.range n).countP p
  | 0 => by simp
  | n + 1 => by
    rw [Finset.sum_range_succ, List.range_succ, List.countP_append,
      sum_ite_countP p n]
    by_cases h : p n
    · simp [h]
    · simp [h]

lemma inner_ite_eq_countP_range' (i n : ℕ) (hin : i < n) (p : ℕ → Bool) :
    (∑ j ∈ Finset.range n, if i < j ∧ p j = true then 1 else 0) =
      (List.range' (i + 1) (n - (i + 1))).countP p := by
  have hcond : ∀ j, (if i < j ∧ p j = true then (1 : ℕ) else 0) =
      if (decide (i < j) && p j) = true then 1 else 0 := by
    intro j
    by_cases h1 : i < j
    · by_cases h2 : p j
      · simp [h1, h2]
      · simp [h1, h2]
    · simp [h1]
  simp only [hcond]
  rw [sum_ite_countP]
  have hsplit : List.range n =
      List.range (i + 1) ++ List.range' (i + 1) (n - (i + 1)) := by
    have hn : n = (n - (i + 1)) + (i + 1) := by omega
    rw [List.range_eq_range', List.range_eq_range']
    conv_lhs => rw [hn]
    rw [← List.range'_append_1 0 (i + 1) (n - (i + 1))]
    simp
  rw [hsplit, List.countP_append]
  have hlow : (List.range (i + 1)).countP
      (fun j => decide (i < j) && p j) = 0 := by
    rw [List.countP_eq_zero]
    intro a ha
    rw [List.mem_range] at ha
    simp only [Bool.and_eq_true, decide_eq_true_eq]
    omega
  have hhigh : (List.range' (i + 1) (n - (i + 1))).countP
      (fun j => decide (i < j) && p j) =
      (List.range' (i + 1) (n - (i + 1))).countP p := by
    refine List.countP_congr (fun j hj => ?_)
    rw [List.mem_range'] at hj
    obtain ⟨k, _, rfl⟩ := hj
    simp only [Bool.and_eq_true, decide_eq_true_eq]
    constructor
    · exact fun h => h.2
    · intro h
      exact ⟨by omega, h⟩
  rw [hlow, hhigh, Nat.zero_add]

lemma card_collidingPairs_eq_ccStruct (ps : List Particle) :
    (collidingPairs ps).card = ccStruct ps := by
  rw [collidingPairs, Finset.card_filter, Finset.sum_product]
  have hrow : ∀ i ∈ Finset.range ps.length,
      (∑ j ∈ Finset.range ps.length,
        if i < j ∧ (ps.getD i default).collide (ps.getD j default) = true
        then 1 else 0) =
      (ps.drop (i + 1)).countP
        (fun q => (ps.getD i default).collide q) := by
    intro i hi
    rw [Finset.mem_range] at hi
    rw [inner_ite_eq_countP_range' i ps.length hi, countP_range'_getD]
  rw [Finset.sum_congr rfl hrow, ← list_sum_range_map, sum_rows_eq_ccStruct]

lemma collide_iff_sqrt_dist_lt (p q : Particle) :
    p.collide q = true ↔
      Real.sqrt ((((p.x : ℝ)) - (q.x : ℝ)) * (((p.x : ℝ)) - (q.x : ℝ)) +
          (((p.y : ℝ)) - (q.y : ℝ)) * (((p.y : ℝ)) - (q.y : ℝ))) <
        ((COLLISION_THRESHOLD : ℚ) : ℝ) := by
  rw [Particle.collide]
  simp only [decide_eq_true_eq]
  rw [Real.sqrt_lt' (by norm_num [COLLISION_THRESHOLD])]
  rw [show (((COLLISION_THRESHOLD : ℚ) : ℝ)) ^ 2 =
      ((COLLISION_THRESHOLD * COLLISION_THRESHOLD : ℚ) : ℝ) from by
    push_cast
    ring]
  constructor
  · intro hlt
    exact_mod_cast hlt
  · intro hlt
    exact_mod_cast hlt

lemma foldl_fetch_add (l : List ℕ) :
    ∀ a : ℕ, l.foldl fetch_add a = a + l.sum := by
  induction l with
  | nil => simp
  | cons x t ih =>
      intro a
      simp [fetch_add, ih, Nat.add_assoc]

lemma tallyAfter_eq_sum (incs : List ℕ) : tallyAfter incs = incs.sum := by
  rw [tallyAfter, foldl_fetch_add, Nat.zero_add]

lemma sum_mem_interleavings {l1 l2 l : List ℕ} (h : l ∈ interleavings l1 l2) :
    l.sum = l1.sum + l2.sum := by
  induction l1 generalizing l2 l with
  | nil =>
      rw [interleavings] at h
      simp only [List.mem_singleton] at h
      simp [h]
  | cons a t1 ih1 =>
      induction l2 generalizing l with
      | nil =>
          rw [interleavings] at h
          simp only [List.mem_singleton] at h
          simp [h]
      | cons b t2 ih2 =>
          rw [interleavings] at h
          rw [List.mem_append] at h
          rcases h with h | h
          · rw [List.mem_map] at h
            obtain ⟨l', hl', rfl⟩ := h
            have := ih1 hl'
            simp only [List.sum_cons] at this ⊢
            omega
          · rw [List.mem_map] at h
            obtain ⟨l', hl', rfl⟩ := h
            have := ih2 hl'
            simp only [List.sum_cons] at this ⊢
            omega

lemma rclamp_mem (v lo hi : ℚ) (h : lo ≤ hi) :
    lo ≤ rclamp v lo hi ∧ rclamp v lo hi ≤ hi := by
  unfold rclamp
  split_ifs with h1 h2
  · exact ⟨le_refl lo, h⟩
  · exact ⟨h, le_refl hi⟩
  · exact ⟨le_of_not_lt h1, le_of_not_lt h2⟩

lemma move_particle_inEnclosure (p : Particle) (u1 u2 : ℚ) :
    inEnclosure (p.move_particle u1 u2) := by
  have h : (0 : ℚ) ≤ ENCLOSURE_SIZE := by norm_num [ENCLOSURE_SIZE]
  obtain ⟨hx1, hx2⟩ := rclamp_mem (p.x + step_draw u1) 0 ENCLOSURE_SIZE h
  obtain ⟨hy1, hy2⟩ := rclamp_mem (p.y + step_draw u2) 0 ENCLOSURE_SIZE h
  exact ⟨hx1, hx2, hy1, hy2⟩

lemma applyMoves_inEnclosure (p : Particle) (hp : inEnclosure p) :
    ∀ moves : List (ℚ × ℚ), inEnclosure (applyMoves p moves)
  | [] => hp
  | m :: ms => by
    rw [applyMoves, List.foldl_cons]
    exact applyMoves_inEnclosure (p.move_particle m.1 m.2)
      (move_particle_inEnclosure p m.1 m.2) ms

lemma loopBodies_nil (readings : List ℚ) (dur : ℚ)
    (hr : ∀ r ∈ readings, 0 ≤ r) (hdur : dur ≤ 0) :
    loopBodies readings dur = [] := by
  cases readings with
  | nil => rfl
  | cons r t =>
      have hnot : ¬ (r < dur) := by
        have := hr r (List.mem_cons_self r t)
        linarith
      simp [loopBodies, List.takeWhile_cons, hnot]

lemma tallyAt_mono (incs : List ℕ) (i j : ℕ) (h : i ≤ j) :
    tallyAt incs i ≤ tallyAt incs j := by
  rw [tallyAt, tallyAt, tallyAfter_eq_sum, tallyAfter_eq_sum,
    show j = i + (j - i) from by omega, List.take_add, List.sum_append]
  omega

lemma tallyAt_succ (incs : List ℕ) (k : ℕ) :
    tallyAt incs (k + 1) = fetch_add (tallyAt incs k) (incs.getD k 0) := by
  rw [tallyAt, tallyAt, tallyAfter_eq_sum, tallyAfter_eq_sum, List.take_succ,
    List.sum_append, fetch_add]
  congr 1
  cases h : incs[k]? with
  | none => simp [h]
  | some v => simp [h]

lemma get_position_inj (p q : Particle)
    (h : p.get_position = q.get_position) : p = q := by
  cases p
  cases q
  simpa [Particle.get_position, Prod.ext_iff] using h

/-! ## Claim theorems -/

/-- C1: the final collision tally equals the exact sum of the per-scan
collision counts folded into it.  Each increment of the tally (the atomic
variant's `fetch_add`, or the collision variant's `*counter += c` under
the counter's mutex) is a single indivisible step, so a concurrent run of
several observer iterations is an interleaving of whole increments; for
every such interleaving the final tally is exactly the total of both
threads' counts — no update is ever lost. -/
theorem tally_never_loses_updates (l1 l2 l : List ℕ)
    (h : l ∈ interleavings l1 l2) :
    tallyAfter l = l1.sum + l2.sum := by
  rw [tallyAfter_eq_sum]
  exact sum_mem_interleavings h

theorem tally_never_loses_updates_witness :
    [1, 3, 2] ∈ interleavings [1, 2] [3] ∧
      tallyAfter [1, 3, 2] = [1, 2].sum + [3].sum := by
  have hmem : [1, 3, 2] ∈ interleavings [1, 2] [3] := by
    simp [interleavings]
  exact ⟨hmem, tally_never_loses_updates [1, 2] [3] [1, 3, 2] hmem⟩

/-- C2: a particle created by `Particle::new` from random draws in `[0,1)`
starts inside `[0, ENCLOSURE_SIZE)` in both coordinates, and after any
sequence of `move_particle` updates both coordinates satisfy
`0 ≤ x ≤ ENCLOSURE_SIZE` and `0 ≤ y ≤ ENCLOSURE_SIZE`: every update clamps
both coordinates into the enclosure. -/
theorem particle_stays_in_enclosure (r1 r2 : ℚ) (moves : List (ℚ × ℚ))
    (h1 : 0 ≤ r1) (h2 : r1 < 1) (h3 : 0 ≤ r2) (h4 : r2 < 1) :
    inEnclosure (applyMoves (Particle.new r1 r2) moves) ∧
    0 ≤ (Particle.new r1 r2).x ∧ (Particle.new r1 r2).x < ENCLOSURE_SIZE ∧
    0 ≤ (Particle.new r1 r2).y ∧ (Particle.new r1 r2).y < ENCLOSURE_SIZE := by
  have hE : (0 : ℚ) < ENCLOSURE_SIZE := by norm_num [ENCLOSURE_SIZE]
  have hx0 : 0 ≤ r1 * ENCLOSURE_SIZE := by positivity
  have hy0 : 0 ≤ r2 * ENCLOSURE_SIZE := by positivity
  have hx1 : r1 * ENCLOSURE_SIZE < ENCLOSURE_SIZE := by nlinarith
  have hy1 : r2 * ENCLOSURE_SIZE < ENCLOSURE_SIZE := by nlinarith
  refine ⟨?_, hx0, hx1, hy0, hy1⟩
  exact applyMoves_inEnclosure (Particle.new r1 r2)
    ⟨hx0, le_of_lt hx1, hy0, le_of_lt hy1⟩ moves

theorem particle_stays_in_enclosure_witness :
    (0 : ℚ) ≤ 1/2 ∧ (1/2 : ℚ) < 1 ∧
    inEnclosure (applyMoves (Particle.new (1/2) (1/2)) [(0, 0), (1, 1)]) := by
  refine ⟨by norm_num, by norm_num, ?_⟩
  exact (particle_stays_in_enclosure (1/2) (1/2) [(0, 0), (1, 1)]
    (by norm_num) (by norm_num) (by norm_num) (by norm_num)).1

/-- C3: `check_collisions` returns exactly the number of unordered pairs of
distinct particles (`i < j`, both indices in range) whose Euclidean
distance is strictly below the collision threshold, and no particle is
ever compared against itself (no pair `(i, i)` is counted). -/
theorem check_collisions_counts_colliding_pairs (s : ParticleSystem) :
    s.check_collisions = (collidingPairs s.particles).card ∧
    (∀ ij : ℕ × ℕ, ij ∈ collidingPairs s.particles ↔
      (ij.1 < s.particles.length ∧ ij.2 < s.particles.length ∧
        ij.1 < ij.2 ∧
        Real.sqrt
          ((((s.particles.getD ij.1 default).x : ℝ) -
              ((s.particles.getD ij.2 default).x : ℝ)) *
            (((s.particles.getD ij.1 default).x : ℝ) -
              ((s.particles.getD ij.2 default).x : ℝ)) +
            (((s.particles.getD ij.1 default).y : ℝ) -
              ((s.particles.getD ij.2 default).y : ℝ)) *
            (((s.particles.getD ij.1 default).y : ℝ) -
              ((s.particles.getD ij.2 default).y : ℝ))) <
          ((COLLISION_THRESHOLD : ℚ) : ℝ))) ∧
    ∀ i : ℕ, (i, i) ∉ collidingPairs s.particles := by
  refine ⟨?_, ?_, ?_⟩
  · rw [check_collisions_eq_ccStruct, ← card_collidingPairs_eq_ccStruct]
  · intro ij
    rw [collidingPairs, Finset.mem_filter, Finset.mem_product,
      Finset.mem_range, Finset.mem_range, collide_iff_sqrt_dist_lt]
    constructor
    · rintro ⟨⟨hi, hj⟩, hlt, hc⟩
      exact ⟨hi, hj, hlt, hc⟩
    · rintro ⟨hi, hj, hlt, hc⟩
      exact ⟨⟨hi, hj⟩, hlt, hc⟩
  · intro i hmem
    rw [collidingPairs, Finset.mem_filter] at hmem
    exact absurd hmem.2.1 (lt_irrefl i)

/-- C4: permuting the particle sequence does not change the value returned
by `check_collisions`: the pairwise collision predicate is symmetric, so
the count over unordered pairs is order-independent. -/
theorem check_collisions_perm_invariant (s1 s2 : ParticleSystem)
    (h : s1.particles.Perm s2.particles) :
    s1.check_collisions = s2.check_collisions := by
  rw [check_collisions_eq_ccStruct, check_collisions_eq_ccStruct]
  exact ccStruct_perm h

theorem check_collisions_perm_invariant_witness :
    (ParticleSystem.mk [⟨0, 0⟩, ⟨5, 5⟩]).particles.Perm
        (ParticleSystem.mk [⟨5, 5⟩, ⟨0, 0⟩]).particles ∧
    (ParticleSystem.mk [⟨0, 0⟩, ⟨5, 5⟩]).check_collisions =
      (ParticleSystem.mk [⟨5, 5⟩, ⟨0, 0⟩]).check_collisions := by
  have hperm : (ParticleSystem.mk [⟨0, 0⟩, ⟨5, 5⟩]).particles.Perm
      (ParticleSystem.mk [⟨5, 5⟩, ⟨0, 0⟩]).particles :=
    List.Perm.swap (⟨5, 5⟩ : Particle) (⟨0, 0⟩ : Particle) []
  exact ⟨hperm, check_collisions_perm_invariant _ _ hperm⟩

/-- C5: on a field whose positions are all identical, `check_collisions`
returns exactly `N·(N-1)/2`: every pairwise distance is `0`, strictly
below the threshold, so every unordered pair is counted. -/
theorem check_collisions_all_identical (ps : List Particle) (p : Particle)
    (h : ∀ q ∈ ps, q = p) :
    ParticleSystem.check_collisions ⟨ps⟩ =
      ps.length * (ps.length - 1) / 2 := by
  rw [List.eq_replicate_of_mem h, check_collisions_eq_ccStruct]
  simpa using ccStruct_replicate ps.length p

theorem check_collisions_all_identical_witness :
    (∀ q ∈ [(⟨3, 4⟩ : Particle), ⟨3, 4⟩, ⟨3, 4⟩], q = (⟨3, 4⟩ : Particle)) ∧
    ParticleSystem.check_collisions ⟨[⟨3, 4⟩, ⟨3, 4⟩, ⟨3, 4⟩]⟩ = 3 :=
  ⟨by decide, check_collisions_all_identical [⟨3, 4⟩, ⟨3, 4⟩, ⟨3, 4⟩] ⟨3, 4⟩
    (by decide)⟩

/-- C6: each of the two displacement values added by `move_particle` is the
image `(u - 1/2) * 2` of a draw `u ∈ [0,1)` of the uniform source, so it
lies in the closed interval `[-1, 1]`; conversely every value of `[-1, 1)`
is reached by some draw (the affine map is onto, carrying the uniform
distribution of the source to the uniform distribution of the step); and
both resulting coordinates are clamped into `[0, ENCLOSURE_SIZE]`. -/
theorem move_particle_draw_in_range_and_clamped (p : Particle) (u1 u2 : ℚ)
    (h1 : 0 ≤ u1) (h2 : u1 < 1) (h3 : 0 ≤ u2) (h4 : u2 < 1) :
    (-1 ≤ step_draw u1 ∧ step_draw u1 ≤ 1) ∧
    (-1 ≤ step_draw u2 ∧ step_draw u2 ≤ 1) ∧
    (∀ d : ℚ, -1 ≤ d → d < 1 →
      ∃ u, 0 ≤ u ∧ u < 1 ∧ step_draw u = d) ∧
    p.move_particle u1 u2 =
      ⟨rclamp (p.x + step_draw u1) 0 ENCLOSURE_SIZE,
        rclamp (p.y + step_draw u2) 0 ENCLOSURE_SIZE⟩ ∧
    inEnclosure (p.move_particle u1 u2) := by
  refine ⟨⟨?_, ?_⟩, ⟨?_, ?_⟩, ?_, rfl, move_particle_inEnclosure p u1 u2⟩
  · simp only [step_draw]
    linarith
  · simp only [step_draw]
    linarith
  · simp only [step_draw]
    linarith
  · simp only [step_draw]
    linarith
  · intro d hd1 hd2
    refine ⟨d / 2 + 1/2, by linarith, by linarith, ?_⟩
    simp only [step_draw]
    ring

theorem move_particle_draw_in_range_and_clamped_witness :
    (0 : ℚ) ≤ 3/4 ∧ (3/4 : ℚ) < 1 ∧
    inEnclosure (Particle.move_particle ⟨1, 1⟩ (3/4) 0) := by
  refine ⟨by norm_num, by norm_num, ?_⟩
  exact (move_particle_draw_in_range_and_clamped ⟨1, 1⟩ (3/4) 0
    (by norm_num) (by norm_num) (by norm_num) (by norm_num)).2.2.2.2

/-- C7: the collision tally is monotonically non-decreasing over the run:
after `k` increments it never exceeds its value after `j ≥ k` increments,
and every step is exactly one `fetch_add` of a non-negative (ℕ-valued)
per-scan count — there is no decrement or reset. -/
theorem tally_monotone (incs : List ℕ) (i j : ℕ) (h : i ≤ j) :
    tallyAt incs i ≤ tallyAt incs j ∧
    ∀ k : ℕ, tallyAt incs (k + 1) = fetch_add (tallyAt incs k) (incs.getD k 0) :=
  ⟨tallyAt_mono incs i j h, tallyAt_succ incs⟩

theorem tally_monotone_witness :
    (1 : ℕ) ≤ 3 ∧ tallyAt [4, 0, 2] 1 ≤ tallyAt [4, 0, 2] 3 :=
  ⟨by decide, (tally_monotone [4, 0, 2] 1 3 (by decide)).1⟩

/-- C8: with a run duration of 0 (or any deadline already elapsed at every
top-of-loop check, `dur ≤ 0` against non-negative elapsed readings), both
the mover's and the observer's poll loops execute no body at all, and the
driver still completes, reporting a tally of 0. -/
theorem zero_duration_run_reports_tally_zero (s : ParticleSystem)
    (rm ro : List ℚ) (dur : ℚ) (hdur : dur ≤ 0)
    (hm : ∀ r ∈ rm, 0 ≤ r) (ho : ∀ r ∈ ro, 0 ≤ r) :
    loopBodies rm dur = [] ∧ loopBodies ro dur = [] ∧
    driverTally s ro dur = 0 := by
  have hb1 := loopBodies_nil rm dur hm hdur
  have hb2 := loopBodies_nil ro dur ho hdur
  refine ⟨hb1, hb2, ?_⟩
  rw [driverTally, hb2]
  rfl

theorem zero_duration_run_reports_tally_zero_witness :
    loopBodies [0, 1] 0 = [] ∧ driverTally ⟨[]⟩ [0, 1] 0 = 0 := by
  have h := zero_duration_run_reports_tally_zero ⟨[]⟩ [0] [0, 1] 0
    (le_refl 0)
    (by
      intro r hr
      simp at hr
      simp [hr])
    (by
      intro r hr
      simp at hr
      rcases hr with rfl | rfl
      · norm_num
      · norm_num)
  exact ⟨h.2.1, h.2.2⟩

/-- C9: with a field of 0 particles the pairwise scan returns 0 — its index
set of pairs is empty, so it performs no index access at all — moving the
empty field leaves it empty, and a full run of any number of observer
scans over the empty field reports a tally of 0. -/
theorem empty_field_run_reports_zero :
    ParticleSystem.check_collisions ⟨[]⟩ = 0 ∧
    collidingPairs [] = ∅ ∧
    (∀ draws : List (ℚ × ℚ), ParticleSystem.move_particles ⟨[]⟩ draws = ⟨[]⟩) ∧
    ∀ k : ℕ, observerTally (List.replicate k ⟨[]⟩) = 0 := by
  refine ⟨rfl, ?_, ?_, ?_⟩
  · simp [collidingPairs]
  · intro draws
    rw [ParticleSystem.move_particles]
    simp
  · intro k
    rw [observerTally, tallyAfter_eq_sum, List.map_replicate]
    simp [ParticleSystem.check_collisions]

/-- C10: `check_collisions` is deterministic, a pure function of the stored
positions and the threshold constant: two particle sequences of equal
length with pairwise-equal positions yield equal counts, with no
dependence on the random source, the clock, or any other state. -/
theorem check_collisions_depends_only_on_positions (s1 s2 : ParticleSystem)
    (hlen : s1.particles.length = s2.particles.length)
    (hpos : ∀ i, i < s1.particles.length →
      (s1.particles.getD i default).get_position =
        (s2.particles.getD i default).get_position) :
    s1.check_collisions = s2.check_collisions := by
  have hp : s1.particles = s2.particles := by
    apply List.ext_getElem hlen
    intro i hi1 hi2
    have hgd := hpos i hi1
    rw [List.getD_eq_getElem?_getD, List.getD_eq_getElem?_getD,
      List.getElem?_eq_getElem hi1, List.getElem?_eq_getElem hi2] at hgd
    exact get_position_inj _ _ hgd
  cases s1
  cases s2
  simp only at hp
  rw [hp]

theorem check_collisions_depends_only_on_positions_witness :
    (ParticleSystem.mk [⟨1, 2⟩]).check_collisions =
      (ParticleSystem.mk [⟨1, 2⟩]).check_collisions :=
  check_collisions_depends_only_on_positions
    (ParticleSystem.mk [⟨1, 2⟩]) (ParticleSystem.mk [⟨1, 2⟩]) rfl
    (fun _ _ => rfl)
